import Mathlib

/-!
Shallow embedding of `fs/path.py`: the path canonicalizer (`normpath`,
`pathjoin`, `pathsplit`, ` isprefix`, `relpath`, `iteratepath`) and the
`PathMap` trie (`__getitem__`, `__setitem__`, `__delitem__`, `clear`).

Python strings are modelled as `List Char` internally (`String.data` at the
API boundary); Python's `str.split`, `str.rsplit(sep, 1)` and `"/".join` are
re-implemented as executable recursive functions.  Fallible operations return
`Option` / `Except`: Python's `ValueError` from `normpath` becomes `none` /
`PMErr.invalidPath`, `KeyError(path)` becomes `PMErr.keyNotFound path`.
-/

set_option autoImplicit false

/-- Python `path.replace('\\', '/')`, one character at a time. -/
def backslash2slash (c : Char) : Char :=
  if c = '\\' then '/' else c

/-- Worker for `splitOnC`; `acc` holds the current piece reversed. -/
def splitOnAux (sep : Char) : List Char → List Char → List (List Char)
  | [], acc => [acc.reverse]
  | c :: rest, acc =>
    if c = sep then acc.reverse :: splitOnAux sep rest []
    else splitOnAux sep rest (c :: acc)

/-- Python `s.split(sep)` for a one-character separator (`"".split` gives `[""]`). -/
def splitOnC (sep : Char) (l : List Char) : List (List Char) :=
  splitOnAux sep l []

/-- Python `sep.join(pieces)` for a one-character separator. -/
def joinWithC (sep : Char) : List (List Char) → List Char
  | [] => []
  | [c] => c
  | c :: rest => c ++ sep :: joinWithC sep rest

/-- Python `s.startswith("/")`. -/
def startsWithSlash : List Char → Bool
  | '/' :: _ => true
  | _ => false

/-- Worker for `rsplitLast`, scanning the reversed string for the separator. -/
def rsplitAux (sep : Char) : List Char → List Char → Option (List Char × List Char)
  | [], _ => none
  | c :: rest, acc =>
    if c = sep then some (rest.reverse, acc)
    else rsplitAux sep rest (c :: acc)

/-- Python `s.rsplit(sep, 1)`: `(none, s)` when `sep` does not occur, else
`(some head, tail)` split at the last occurrence. -/
def rsplitLast (sep : Char) (l : List Char) : Option (List Char) × List Char :=
  match rsplitAux sep l.reverse [] with
  | none => (none, l)
  | some (h, t) => (some h, t)

/-- The `while bits1 and bits1[-1] == "": bits1.pop()` loop of ` isprefix`:
drop every trailing empty piece. -/
def dropTrailingEmpty (l : List (List Char)) : List (List Char) :=
  (l.reverse.dropWhile (fun c => c = [])).reverse

/-- The component-processing loop of `normpath`: skip empty and `"."`
segments, let `".."` pop the most recently pushed segment (failing when none
remains), push everything else.  `acc` holds pushed components in reverse. -/
def normCompsC : List (List Char) → List (List Char) → Option (List (List Char))
  | acc, [] => some acc.reverse
  | acc, comp :: rest =>
    if comp = [] ∨ comp = ['.'] then normCompsC acc rest
    else if comp = ['.', '.'] then
      match acc with
      | [] => none
      | _ :: acc' => normCompsC acc' rest
    else normCompsC (comp :: acc) rest

/-- `normpath` on the character list of the input string.  Mirrors
`fs.path.normpath`: empty input is returned unchanged; otherwise backslashes
become slashes, the string is split on `/` and the segments are folded by
`normCompsC`; a leading `/` or `\` on the ORIGINAL input makes the result
absolute (root collapses to `"/"`).  `none` models the `ValueError` raised on
too many backrefs. -/
def normpathC (p : List Char) : Option (List Char) :=
  match p with
  | [] => some []
  | c0 :: _ =>
    match normCompsC [] (splitOnC '/' (p.map backslash2slash)) with
    | none => none
    | some comps =>
      if c0 = '\\' ∨ c0 = '/' then
        some (joinWithC '/' ([] :: (if comps = [] then [[]] else comps)))
      else
        some (joinWithC '/' comps)

/-- `fs.path.normpath` at the `String` level. -/
def normpath (path : String) : Option String :=
  (normpathC path.data).map String.mk

/-- `fs.path.relpath`: strip all leading slashes. -/
def relpathC (p : List Char) : List Char :=
  p.dropWhile (fun c => c = '/')

/-- `fs.path.iteratepath` (with `numsplits=None`): normalize, make relative,
and split into components; `none` models the propagated `ValueError`. -/
def iteratepath (path : String) : Option (List String) :=
  (normpathC path.data).map fun q =>
    let r := relpathC q
    if r = [] then [] else (splitOnC '/' r).map String.mk

/-- One iteration of `pathjoin`'s accumulation loop: an empty argument is
skipped; an argument starting with a slash or backslash discards everything
accumulated so far and sets the `absolute` flag; otherwise the argument is
appended. -/
def pathjoinStep (st : Bool × List (List Char)) (p : String) :
    Bool × List (List Char) :=
  match p.data with
  | [] => st
  | c :: _ =>
    if c = '\\' ∨ c = '/' then (true, [p.data])
    else (st.1, st.2 ++ [p.data])

/-- `fs.path.pathjoin`: fold the arguments keeping an `absolute` flag and the
surviving relative pieces, join with `/`, normalize, and force a leading
slash when the accumulated result was absolute. -/
def pathjoin (paths : List String) : Option String :=
  let st := paths.foldl pathjoinStep (false, [])
  (normpathC (joinWithC '/' st.2)).map fun q =>
    String.mk (if st.1 && !(startsWithSlash q) then '/' :: q else q)

/-- `fs.path.pathsplit`: normalize then `rsplit('/', 1)`; when no separator
remains the head is empty. -/
def pathsplit (path : String) : Option (String × String) :=
  (normpathC path.data).map fun q =>
    match rsplitLast '/' q with
    | (none, t) => ("", String.mk t)
    | (some h, t) => (String.mk h, String.mk t)

/-- The ` isprefix` function of `fs.path`: split both arguments on `/`, drop path1's trailing
empty pieces, then path1 must not be longer and must agree with path2
componentwise. -/
def isprefix (path1 path2 : String) : Bool :=
  let bits1 := dropTrailingEmpty (splitOnC '/' path1.data)
  let bits2 := splitOnC '/' path2.data
  if bits1.length > bits2.length then false
  else (bits1.zip bits2).all fun pq => pq.1 == pq.2

/-- The prefix condition exactly as the claim words it: path1's components
after ignoring a SINGLE trailing empty component must be the corresponding
leading components of path2.  (Stated from the spec's words, for comparison
with the source's ` isprefix`.) -/
def claimOnePrefixCond (path1 path2 : String) : Bool :=
  let bits1 := splitOnC '/' path1.data
  let bits1 := if bits1.getLastD ['/'] = [] then bits1.dropLast else bits1
  let bits2 := splitOnC '/' path2.data
  decide (bits1.length ≤ bits2.length) && (bits1 == bits2.take bits1.length)

/-- Segment list of a path exactly as `normpath` sees it. -/
def segsOf (path : String) : List (List Char) :=
  splitOnC '/' (path.data.map backslash2slash)

/-- Number of `".."` segments. -/
def ddotCount (l : List (List Char)) : Nat :=
  l.countP fun c => decide (c = ['.', '.'])

/-- Number of real (pushed) segments: non-empty, not `"."`, not `".."`. -/
def realCount (l : List (List Char)) : Nat :=
  l.countP fun c => decide (¬(c = [] ∨ c = ['.']) ∧ c ≠ ['.', '.'])

/-- Some prefix of the segment list contains more `".."` segments than real
segments preceding them. -/
def backrefOverflow (path : String) : Prop :=
  ∃ n, realCount ((segsOf path).take n) < ddotCount ((segsOf path).take n)

/-- A canonical path component: non-empty, free of separators, and not a
`"."` or `".."` dot reference. -/
def RealComp (c : List Char) : Prop :=
  c ≠ [] ∧ '/' ∉ c ∧ '\\' ∉ c ∧ c ≠ ['.'] ∧ c ≠ ['.', '.']

instance (c : List Char) : Decidable (RealComp c) := by
  unfold RealComp; infer_instance

/-- One level of the `PathMap` trie: Python's nested dict, with the `""`
sentinel key split out as an optional value slot and the remaining keys as an
insertion-ordered association list of children. -/
inductive Node (α : Type) : Type where
  | mk : Option α → List (String × Node α) → Node α

/-- The value slot (Python's `m[""]`). -/
def Node.value {α : Type} : Node α → Option α
  | .mk v _ => v

/-- The named children (Python's non-sentinel dict entries). -/
def Node.children {α : Type} : Node α → List (String × Node α)
  | .mk _ c => c

/-- An empty dict `{}`. -/
def Node.empty {α : Type} : Node α := .mk none []

/-- Error kinds of the Python code, each carrying the original path string:
`invalidPath` is `normpath`'s `ValueError`, `keyNotFound` is `KeyError(path)`. -/
inductive PMErr : Type where
  | invalidPath : String → PMErr
  | keyNotFound : String → PMErr
  deriving DecidableEq

namespace PathMap

variable {α : Type}

/-- Python `d[k]` lookup in a child dict. -/
def lookupC : List (String × Node α) → String → Option (Node α)
  | [], _ => none
  | (k, v) :: rest, key => if k = key then some v else lookupC rest key

/-- Python `d[k] = x` / `d.setdefault(k, x)` store: replace in place if the
key is present, else append (dicts keep insertion order). -/
def setC : List (String × Node α) → String → Node α → List (String × Node α)
  | [], key, x => [(key, x)]
  | (k, v) :: rest, key, x =>
    if k = key then (key, x) :: rest else (k, v) :: setC rest key x

/-- Python `del d[k]`: remove the key (dicts hold each key once). -/
def removeC : List (String × Node α) → String → List (String × Node α)
  | [], _ => []
  | (k, v) :: rest, key =>
    if k = key then removeC rest key else (k, v) :: removeC rest key

/-- The walking loop shared by `__getitem__` and friends: follow the
components; `none` when a component is missing. -/
def findNodeAux : Node α → List String → Option (Node α)
  | n, [] => some n
  | n, k :: ks =>
    match lookupC n.children k with
    | none => none
    | some c => findNodeAux c ks

/-- `PathMap.__getitem__` after `iteratepath`: walk the components, then read
the value slot; `none` for both failure modes (missing child, empty slot). -/
def getAux : Node α → List String → Option α
  | n, [] => n.value
  | n, k :: ks =>
    match lookupC n.children k with
    | none => none
    | some c => getAux c ks

/-- `PathMap.__setitem__` after `iteratepath`: walk the components creating
missing nodes with `setdefault(name, {})`, then fill the value slot. -/
def setAux : Node α → List String → α → Node α
  | n, [], v => .mk (some v) n.children
  | n, k :: ks, v =>
    let c := match lookupC n.children k with
      | some c => c
      | none => Node.empty
    .mk n.value (setC n.children k (setAux c ks v))

/-- `PathMap.__delitem__` after `iteratepath`.  Outer `none` models
`KeyError`; `some none` means the deletion succeeded and this node became an
empty dict, to be pruned by its parent (the `while len(ms) > 1 and not
ms[-1][0]` loop); `some (some n)` is the surviving updated node. -/
def delAux : Node α → List String → Option (Option (Node α))
  | n, [] =>
    match n.value with
    | none => none
    | some _ =>
      if n.children.isEmpty then some none else some (some (.mk none n.children))
  | n, k :: ks =>
    match lookupC n.children k with
    | none => none
    | some c =>
      match delAux c ks with
      | none => none
      | some none =>
        let ch' := removeC n.children k
        if n.value.isNone && ch'.isEmpty then some none
        else some (some (.mk n.value ch'))
      | some (some c') => some (some (.mk n.value (setC n.children k c')))

/-- `PathMap.clear` after `iteratepath`: walk to the node (`none` when a
component is missing, giving the silent no-op), then `m.clear()` empties it. -/
def clearAux : Node α → List String → Option (Node α)
  | _, [] => some Node.empty
  | n, k :: ks =>
    match lookupC n.children k with
    | none => none
    | some c =>
      (clearAux c ks).map fun c' => .mk n.value (setC n.children k c')

/-- `PathMap.__getitem__` at the `String` level. -/
def getitem (m : Node α) (path : String) : Except PMErr α :=
  match iteratepath path with
  | none => .error (.invalidPath path)
  | some comps =>
    match getAux m comps with
    | none => .error (.keyNotFound path)
    | some v => .ok v

/-- `PathMap.__setitem__` at the `String` level, returning the updated map. -/
def setitem (m : Node α) (path : String) (v : α) : Except PMErr (Node α) :=
  match iteratepath path with
  | none => .error (.invalidPath path)
  | some comps => .ok (setAux m comps v)

/-- `PathMap.__delitem__` at the `String` level, returning the updated map;
the root dict is never pruned, so a fully emptied map is the empty root. -/
def delitem (m : Node α) (path : String) : Except PMErr (Node α) :=
  match iteratepath path with
  | none => .error (.invalidPath path)
  | some comps =>
    match delAux m comps with
    | none => .error (.keyNotFound path)
    | some none => .ok Node.empty
    | some (some r) => .ok r

/-- `PathMap.clear` at the `String` level, returning the (possibly unchanged)
map. -/
def clear (m : Node α) (root : String) : Except PMErr (Node α) :=
  match iteratepath root with
  | none => .error (.invalidPath root)
  | some comps =>
    match clearAux m comps with
    | none => .ok m
    | some r => .ok r

end PathMap

/-! ## Lemmas about splitting and joining -/

theorem splitOnAux_no_sep {sep : Char} :
    ∀ (l acc : List Char), sep ∉ l → splitOnAux sep l acc = [acc.reverse ++ l] := by
  intro l
  induction l with
  | nil => intro acc _; simp [splitOnAux]
  | cons c rest ih =>
    intro acc h
    have hc : c ≠ sep := fun hcs => h (hcs ▸ List.mem_cons_self c rest)
    have hr : sep ∉ rest := fun hs => h (List.mem_cons_of_mem c hs)
    simp only [splitOnAux, if_neg (fun hcs => hc hcs), ih (c :: acc) hr]
    simp

theorem splitOnAux_append {sep : Char} :
    ∀ (x : List Char) (rest acc : List Char), sep ∉ x →
      splitOnAux sep (x ++ sep :: rest) acc =
        (acc.reverse ++ x) :: splitOnAux sep rest [] := by
  intro x
  induction x with
  | nil => intro rest acc _; simp [splitOnAux]
  | cons c t ih =>
    intro rest acc h
    have hc : c ≠ sep := fun hcs => h (hcs ▸ List.mem_cons_self c t)
    have ht : sep ∉ t := fun hs => h (List.mem_cons_of_mem c hs)
    rw [List.cons_append]
    rw [show splitOnAux sep (c :: (t ++ sep :: rest)) acc
        = splitOnAux sep (t ++ sep :: rest) (c :: acc) by
      simp [splitOnAux, hc]]
    rw [ih rest (c :: acc) ht]
    simp

theorem joinWithC_cons₂ (sep : Char) (a b : List Char) (t : List (List Char)) :
    joinWithC sep (a :: b :: t) = a ++ sep :: joinWithC sep (b :: t) := rfl

theorem splitOnC_joinWithC {sep : Char} :
    ∀ (cs : List (List Char)), cs ≠ [] → (∀ c ∈ cs, sep ∉ c) →
      splitOnC sep (joinWithC sep cs) = cs := by
  intro cs
  induction cs with
  | nil => intro h; exact absurd rfl h
  | cons c t ih =>
    intro _ hmem
    match t with
    | [] =>
      have : sep ∉ c := hmem c (List.mem_cons_self c [])
      simp [joinWithC, splitOnC, splitOnAux_no_sep c [] this]
    | c' :: t' =>
      have hc : sep ∉ c := hmem c (List.mem_cons_self _ _)
      rw [joinWithC_cons₂, splitOnC, splitOnAux_append c (joinWithC sep (c' :: t')) [] hc]
      have := ih (by simp) (fun x hx => hmem x (List.mem_cons_of_mem c hx))
      rw [splitOnC] at this
      simp [this]

theorem mem_joinWithC {sep ch : Char} :
    ∀ (cs : List (List Char)), ch ∈ joinWithC sep cs → ch = sep ∨ ∃ c ∈ cs, ch ∈ c
  | [], h => by simp [joinWithC] at h
  | [c], h => by
    simp [joinWithC] at h
    exact Or.inr ⟨c, by simp, h⟩
  | c :: c' :: t, h => by
    rw [joinWithC_cons₂] at h
    rcases List.mem_append.mp h with h1 | h2
    · exact Or.inr ⟨c, by simp, h1⟩
    · rcases List.mem_cons.mp h2 with h3 | h4
      · exact Or.inl h3
      · rcases mem_joinWithC (c' :: t) h4 with h5 | ⟨d, hd, hchd⟩
        · exact Or.inl h5
        · exact Or.inr ⟨d, List.mem_cons_of_mem c hd, hchd⟩

theorem joinWithC_append_single {sep : Char} :
    ∀ (dl : List (List Char)) (x : List Char), dl ≠ [] →
      joinWithC sep (dl ++ [x]) = joinWithC sep dl ++ sep :: x := by
  intro dl
  induction dl with
  | nil => intro x h; exact absurd rfl h
  | cons c t ih =>
    intro x _
    match t with
    | [] => simp [joinWithC]
    | c' :: t' =>
      have h2 := ih x (by simp)
      rw [List.cons_append] at h2
      simp only [List.cons_append]
      rw [joinWithC_cons₂ sep c c' (t' ++ [x]), h2, joinWithC_cons₂ sep c c' t']
      simp

theorem splitOnAux_pieces_no_sep {sep : Char} :
    ∀ (l acc : List Char), sep ∉ acc → ∀ x ∈ splitOnAux sep l acc, sep ∉ x := by
  intro l
  induction l with
  | nil =>
    intro acc hacc x hx
    rw [show splitOnAux sep [] acc = [acc.reverse] from rfl, List.mem_singleton] at hx
    subst hx
    simpa using hacc
  | cons c rest ih =>
    intro acc hacc x hx
    by_cases hc : c = sep
    · rw [show splitOnAux sep (c :: rest) acc = acc.reverse :: splitOnAux sep rest [] by
        simp [splitOnAux, hc]] at hx
      rcases List.mem_cons.mp hx with h1 | h1
      · subst h1; simpa using hacc
      · exact ih [] (by simp) x h1
    · rw [show splitOnAux sep (c :: rest) acc = splitOnAux sep rest (c :: acc) by
        simp [splitOnAux, hc]] at hx
      refine ih (c :: acc) ?_ x hx
      intro hmem
      rcases List.mem_cons.mp hmem with h | h
      · exact hc h.symm
      · exact hacc h

theorem splitOnAux_pieces_chars {sep : Char} :
    ∀ (l acc x : List Char), x ∈ splitOnAux sep l acc → ∀ ch ∈ x, ch ∈ acc ∨ ch ∈ l := by
  intro l
  induction l with
  | nil =>
    intro acc x hx ch hch
    rw [show splitOnAux sep [] acc = [acc.reverse] from rfl, List.mem_singleton] at hx
    subst hx
    exact Or.inl (List.mem_reverse.mp hch)
  | cons c rest ih =>
    intro acc x hx ch hch
    by_cases hc : c = sep
    · rw [show splitOnAux sep (c :: rest) acc = acc.reverse :: splitOnAux sep rest [] by
        simp [splitOnAux, hc]] at hx
      rcases List.mem_cons.mp hx with h1 | h1
      · subst h1; exact Or.inl (List.mem_reverse.mp hch)
      · rcases ih [] x h1 ch hch with h | h
        · simp at h
        · exact Or.inr (List.mem_cons_of_mem c h)
    · rw [show splitOnAux sep (c :: rest) acc = splitOnAux sep rest (c :: acc) by
        simp [splitOnAux, hc]] at hx
      rcases ih (c :: acc) x hx ch hch with h | h
      · rcases List.mem_cons.mp h with h1 | h1
        · exact Or.inr (h1 ▸ List.mem_cons_self c rest)
        · exact Or.inl h1
      · exact Or.inr (List.mem_cons_of_mem c h)

theorem map_backslash2slash_id {l : List Char} (h : ∀ ch ∈ l, ch ≠ '\\') :
    l.map backslash2slash = l := by
  induction l with
  | nil => rfl
  | cons c t ih =>
    have hc : c ≠ '\\' := h c (List.mem_cons_self c t)
    simp only [List.map_cons, backslash2slash, if_neg hc,
      ih (fun ch hch => h ch (List.mem_cons_of_mem c hch))]

theorem no_backslash_of_map (l : List Char) :
    ∀ ch ∈ l.map backslash2slash, ch ≠ '\\' := by
  intro ch hch
  rcases List.mem_map.mp hch with ⟨c, _, hc⟩
  subst hc
  by_cases h : c = '\\' <;> simp [backslash2slash, h]

theorem rsplitAux_spec {sep : Char} :
    ∀ (xs ys acc : List Char), sep ∉ xs →
      rsplitAux sep (xs ++ sep :: ys) acc = some (ys.reverse, xs.reverse ++ acc) := by
  intro xs
  induction xs with
  | nil => intro ys acc _; simp [rsplitAux]
  | cons c t ih =>
    intro ys acc h
    have hc : c ≠ sep := fun hcs => h (hcs ▸ List.mem_cons_self c t)
    have ht : sep ∉ t := fun hs => h (List.mem_cons_of_mem c hs)
    rw [List.cons_append]
    rw [show rsplitAux sep (c :: (t ++ sep :: ys)) acc
        = rsplitAux sep (t ++ sep :: ys) (c :: acc) by
      simp [rsplitAux, hc]]
    rw [ih ys (c :: acc) ht]
    simp

theorem splitOnAux_all_sep {sep : Char} :
    ∀ (l acc : List Char), (∀ c ∈ l, c = sep) →
      splitOnAux sep l acc = acc.reverse :: List.replicate l.length [] := by
  intro l
  induction l with
  | nil => intro acc _; simp [splitOnAux]
  | cons c t ih =>
    intro acc h
    have hc : c = sep := h c (List.mem_cons_self c t)
    simp only [splitOnAux, if_pos hc, ih [] (fun x hx => h x (List.mem_cons_of_mem c hx))]
    simp [List.replicate_succ]

/-! ## Lemmas about the normalization component loop -/

theorem realCount_cons (c : List Char) (l : List (List Char)) :
    realCount (c :: l) =
      realCount l + if ¬(c = [] ∨ c = ['.']) ∧ c ≠ ['.', '.'] then 1 else 0 := by
  simp [realCount, List.countP_cons]

theorem ddotCount_cons (c : List Char) (l : List (List Char)) :
    ddotCount (c :: l) = ddotCount l + if c = ['.', '.'] then 1 else 0 := by
  simp [ddotCount, List.countP_cons]

theorem normCompsC_all_real :
    ∀ (cs acc : List (List Char)),
      (∀ c ∈ cs, ¬(c = [] ∨ c = ['.']) ∧ c ≠ ['.', '.']) →
      normCompsC acc cs = some (acc.reverse ++ cs) := by
  intro cs
  induction cs with
  | nil => intro acc _; simp [normCompsC]
  | cons c t ih =>
    intro acc h
    have hc := h c (List.mem_cons_self c t)
    rw [show normCompsC acc (c :: t) = normCompsC (c :: acc) t by
      simp [normCompsC, hc.1, hc.2]]
    rw [ih (c :: acc) (fun x hx => h x (List.mem_cons_of_mem c hx))]
    simp

theorem normCompsC_all_empty :
    ∀ (cs acc : List (List Char)), (∀ x ∈ cs, x = []) →
      normCompsC acc cs = some acc.reverse := by
  intro cs
  induction cs with
  | nil => intro acc _; rfl
  | cons c t ih =>
    intro acc h
    have hc : c = [] := h c (List.mem_cons_self c t)
    rw [show normCompsC acc (c :: t) = normCompsC acc t by simp [normCompsC, hc]]
    exact ih acc (fun x hx => h x (List.mem_cons_of_mem c hx))

theorem normCompsC_mem :
    ∀ (cs acc r : List (List Char)), normCompsC acc cs = some r →
      ∀ x ∈ r, x ∈ acc ∨ (x ∈ cs ∧ ¬(x = [] ∨ x = ['.']) ∧ x ≠ ['.', '.']) := by
  intro cs
  induction cs with
  | nil =>
    intro acc r h x hx
    rw [show normCompsC acc [] = some acc.reverse from rfl, Option.some_inj] at h
    subst h
    exact Or.inl (List.mem_reverse.mp hx)
  | cons c t ih =>
    intro acc r h x hx
    by_cases h1 : c = [] ∨ c = ['.']
    · rw [show normCompsC acc (c :: t) = normCompsC acc t by simp [normCompsC, h1]] at h
      rcases ih acc r h x hx with hA | ⟨hB1, hB2⟩
      · exact Or.inl hA
      · exact Or.inr ⟨List.mem_cons_of_mem c hB1, hB2⟩
    · by_cases h2 : c = ['.', '.']
      · rcases acc with _ | ⟨a, acc'⟩
        · rw [show normCompsC [] (c :: t) = none by simp [normCompsC, h1, h2]] at h
          cases h
        ·
          rw [show normCompsC (a :: acc') (c :: t) = normCompsC acc' t by
            simp [normCompsC, h1, h2]] at h
          rcases ih acc' r h x hx with hA | hB
          exact Or.inl (List.mem_cons_of_mem a hA)
          exact Or.inr ⟨List.mem_cons_of_mem c hB.1, hB.2⟩
      · rw [show normCompsC acc (c :: t) = normCompsC (c :: acc) t by
          simp [normCompsC, h1, h2]] at h
        rcases ih (c :: acc) r h x hx with hA | hB
        · rcases List.mem_cons.mp hA with hx1 | hx1
          · rw [hx1]
            exact Or.inr ⟨List.mem_cons_self c t, h1, h2⟩
          · exact Or.inl hx1
        · exact Or.inr ⟨List.mem_cons_of_mem c hB.1, hB.2⟩

theorem normCompsC_none_iff :
    ∀ (cs acc : List (List Char)),
      (normCompsC acc cs = none ↔
        ∃ n, acc.length + realCount (cs.take n) < ddotCount (cs.take n)) := by
  intro cs
  induction cs with
  | nil =>
    intro acc
    constructor
    · intro h
      rw [show normCompsC acc [] = some acc.reverse from rfl] at h
      cases h
    · rintro ⟨n, hn⟩
      simp [realCount, ddotCount] at hn
  | cons c t ih =>
    intro acc
    by_cases h1 : c = [] ∨ c = ['.']
    · have h2 : c ≠ ['.', '.'] := by rcases h1 with h | h <;> simp [h]
      rw [show normCompsC acc (c :: t) = normCompsC acc t by simp [normCompsC, h1]]
      rw [ih acc]
      constructor
      · rintro ⟨n, hn⟩
        refine ⟨n + 1, ?_⟩
        rw [List.take_succ_cons, realCount_cons, ddotCount_cons,
          if_neg (fun hh => hh.1 h1), if_neg h2]
        omega
      · rintro ⟨n, hn⟩
        rcases n with _ | m
        · simp [realCount, ddotCount] at hn
        · rw [List.take_succ_cons, realCount_cons, ddotCount_cons,
            if_neg (fun hh => hh.1 h1), if_neg h2] at hn
          exact ⟨m, by omega⟩
    · by_cases h2 : c = ['.', '.']
      · rcases acc with _ | ⟨a, acc'⟩
        · rw [show normCompsC [] (c :: t) = none by simp [normCompsC, h1, h2]]
          constructor
          · intro _
            refine ⟨0 + 1, ?_⟩
            rw [List.take_succ_cons, List.take_zero, realCount_cons, ddotCount_cons,
              if_neg (fun hh => hh.2 h2), if_pos h2]
            simp [realCount, ddotCount]
          · intro _; rfl
        · rw [show normCompsC (a :: acc') (c :: t) = normCompsC acc' t by
            simp [normCompsC, h1, h2]]
          rw [ih acc']
          constructor
          · rintro ⟨n, hn⟩
            refine ⟨n + 1, ?_⟩
            rw [List.take_succ_cons, realCount_cons, ddotCount_cons,
              if_neg (fun hh => hh.2 h2), if_pos h2]
            simp only [List.length_cons]
            omega
          · rintro ⟨n, hn⟩
            rcases n with _ | m
            · simp [realCount, ddotCount] at hn
            · rw [List.take_succ_cons, realCount_cons, ddotCount_cons,
                if_neg (fun hh => hh.2 h2), if_pos h2] at hn
              refine ⟨m, ?_⟩
              simp only [List.length_cons] at hn
              omega
      · rw [show normCompsC acc (c :: t) = normCompsC (c :: acc) t by
          simp [normCompsC, h1, h2]]
        rw [ih (c :: acc)]
        constructor
        · rintro ⟨n, hn⟩
          refine ⟨n + 1, ?_⟩
          rw [List.take_succ_cons, realCount_cons, ddotCount_cons,
            if_pos ⟨h1, h2⟩, if_neg h2]
          simp only [List.length_cons] at hn
          omega
        · rintro ⟨n, hn⟩
          rcases n with _ | m
          · simp [realCount, ddotCount] at hn
          · rw [List.take_succ_cons, realCount_cons, ddotCount_cons,
              if_pos ⟨h1, h2⟩, if_neg h2] at hn
            refine ⟨m, ?_⟩
            simp only [List.length_cons]
            omega

/-! ## Canonical-form lemmas for normpath -/

theorem normpathC_cons (c0 : Char) (rest : List Char) :
    normpathC (c0 :: rest) =
      match normCompsC [] (splitOnC '/' ((c0 :: rest).map backslash2slash)) with
      | none => none
      | some comps =>
        if c0 = '\\' ∨ c0 = '/' then
          some (joinWithC '/' ([] :: (if comps = [] then [[]] else comps)))
        else some (joinWithC '/' comps) := rfl

theorem splitOnC_slash_cons (l : List Char) :
    splitOnC '/' ('/' :: l) = [] :: splitOnC '/' l := by
  simp [splitOnC, splitOnAux]

theorem joinWithC_no_backslash {cs : List (List Char)} (h : ∀ c ∈ cs, RealComp c) :
    ∀ ch ∈ joinWithC '/' cs, ch ≠ '\\' := by
  intro ch hch
  rcases mem_joinWithC cs hch with h1 | ⟨c, hc, hchc⟩
  · subst h1; decide
  · exact fun hb => (h c hc).2.2.1 (hb ▸ hchc)

theorem realish_of_RealComp {cs : List (List Char)} (h : ∀ c ∈ cs, RealComp c) :
    ∀ c ∈ cs, ¬(c = [] ∨ c = ['.']) ∧ c ≠ ['.', '.'] := by
  intro c hc
  exact ⟨fun hor => hor.elim (h c hc).1 (h c hc).2.2.2.1, (h c hc).2.2.2.2⟩

theorem normpathC_canon_abs {cs : List (List Char)} (h : ∀ c ∈ cs, RealComp c) :
    normpathC ('/' :: joinWithC '/' cs) = some ('/' :: joinWithC '/' cs) := by
  rcases cs with _ | ⟨c1, t⟩
  · rfl
  · have hmap : (('/' : Char) :: joinWithC '/' (c1 :: t)).map backslash2slash
        = '/' :: joinWithC '/' (c1 :: t) := by
      apply map_backslash2slash_id
      intro ch hch
      rcases List.mem_cons.mp hch with h1 | h1
      · subst h1; decide
      · exact joinWithC_no_backslash h ch h1
    rw [normpathC_cons, hmap, splitOnC_slash_cons]
    rw [splitOnC_joinWithC (c1 :: t) (by simp) (fun c hc => (h c hc).2.1)]
    rw [show normCompsC [] ([] :: c1 :: t) = normCompsC [] (c1 :: t) by
      simp [normCompsC]]
    rw [normCompsC_all_real (c1 :: t) [] (realish_of_RealComp h)]
    simp [joinWithC_cons₂]

theorem normpathC_canon_rel {cs : List (List Char)} (hne : cs ≠ [])
    (h : ∀ c ∈ cs, RealComp c) :
    normpathC (joinWithC '/' cs) = some (joinWithC '/' cs) := by
  rcases cs with _ | ⟨c1, t⟩
  · exact absurd rfl hne
  · have hc1 := h c1 (List.mem_cons_self c1 t)
    rcases c1 with _ | ⟨a, c1r⟩
    · exact absurd rfl hc1.1
    · have ha : a ∈ a :: c1r := List.mem_cons_self a c1r
      have hans : a ≠ '/' := fun hs => hc1.2.1 (hs ▸ ha)
      have hanb : a ≠ '\\' := fun hs => hc1.2.2.1 (hs ▸ ha)
      obtain ⟨rest, hrest⟩ :
          ∃ rest, joinWithC '/' ((a :: c1r) :: t) = a :: rest := by
        rcases t with _ | ⟨c2, t'⟩
        · exact ⟨c1r, rfl⟩
        · exact ⟨c1r ++ '/' :: joinWithC '/' (c2 :: t'), rfl⟩
      rw [hrest, normpathC_cons]
      have hmap : (a :: rest).map backslash2slash = a :: rest := by
        rw [← hrest]
        exact map_backslash2slash_id (joinWithC_no_backslash h)
      rw [hmap, ← hrest]
      rw [splitOnC_joinWithC ((a :: c1r) :: t) (by simp) (fun c hc => (h c hc).2.1)]
      rw [normCompsC_all_real ((a :: c1r) :: t) [] (realish_of_RealComp h)]
      simp [hans, hanb]

theorem normpathC_shapes {p qc : List Char} (h : normpathC p = some qc) :
    qc = [] ∨ qc = ['/'] ∨
      ∃ cs, cs ≠ [] ∧ (∀ c ∈ cs, RealComp c) ∧
        (qc = joinWithC '/' cs ∨ qc = '/' :: joinWithC '/' cs) := by
  rcases p with _ | ⟨c0, rest⟩
  · rw [show normpathC [] = some [] from rfl, Option.some_inj] at h
    exact Or.inl h.symm
  · rw [normpathC_cons] at h
    rcases hn : normCompsC [] (splitOnC '/' ((c0 :: rest).map backslash2slash))
        with _ | comps
    · rw [hn] at h; cases h
    · rw [hn] at h
      dsimp only at h
      have hreal : ∀ c ∈ comps, RealComp c := by
        intro c hc
        rcases normCompsC_mem _ [] comps hn c hc with hA | ⟨hB1, hB2, hB3⟩
        · simp at hA
        · refine ⟨fun he => hB2 (Or.inl he), ?_, ?_, fun he => hB2 (Or.inr he), hB3⟩
          · exact splitOnAux_pieces_no_sep _ [] (by simp) c hB1
          · intro hb
            exact no_backslash_of_map _ '\\'
              ((splitOnAux_pieces_chars _ [] c hB1 '\\' hb).resolve_left (by simp)) rfl
      by_cases habs : c0 = '\\' ∨ c0 = '/'
      · rw [if_pos habs] at h
        rcases hcomps : comps with _ | ⟨c1, t⟩
        · rw [hcomps] at h
          rw [Option.some_inj] at h
          exact Or.inr (Or.inl (by rw [← h]; rfl))
        · rw [hcomps] at h
          rw [if_neg (by simp), Option.some_inj] at h
          refine Or.inr (Or.inr ⟨c1 :: t, by simp, hcomps ▸ hreal, Or.inr ?_⟩)
          rw [← h, joinWithC_cons₂]
          simp
      · rw [if_neg habs, Option.some_inj] at h
        rcases hcomps : comps with _ | ⟨c1, t⟩
        · rw [hcomps] at h
          exact Or.inl (by rw [← h]; rfl)
        · exact Or.inr (Or.inr ⟨comps, by rw [hcomps]; simp, hreal, Or.inl h.symm⟩)

/-! ## Lemmas about the PathMap trie -/

namespace PathMap

variable {α : Type}

theorem getAux_nil (V : Option α) (CH : List (String × Node α)) :
    getAux (Node.mk V CH) [] = V := rfl

theorem getAux_cons (V : Option α) (CH : List (String × Node α)) (k : String)
    (ks : List String) :
    getAux (Node.mk V CH) (k :: ks) =
      match lookupC CH k with
      | none => none
      | some c => getAux c ks := rfl

theorem setAux_nil (V : Option α) (CH : List (String × Node α)) (v : α) :
    setAux (Node.mk V CH) [] v = Node.mk (some v) CH := rfl

theorem setAux_cons (V : Option α) (CH : List (String × Node α)) (k : String)
    (ks : List String) (v : α) :
    setAux (Node.mk V CH) (k :: ks) v =
      Node.mk V (setC CH k
        (setAux (match lookupC CH k with | some c => c | none => Node.empty) ks v)) := rfl

theorem delAux_nil (V : Option α) (CH : List (String × Node α)) :
    delAux (Node.mk V CH) [] =
      match V with
      | none => none
      | some _ =>
        if CH.isEmpty then some none else some (some (Node.mk none CH)) := rfl

theorem delAux_cons (V : Option α) (CH : List (String × Node α)) (k : String)
    (ks : List String) :
    delAux (Node.mk V CH) (k :: ks) =
      match lookupC CH k with
      | none => none
      | some c =>
        match delAux c ks with
        | none => none
        | some none =>
          if V.isNone && (removeC CH k).isEmpty then some none
          else some (some (Node.mk V (removeC CH k)))
        | some (some c') => some (some (Node.mk V (setC CH k c'))) := rfl

theorem lookupC_setC_self (l : List (String × Node α)) (k : String) (x : Node α) :
    lookupC (setC l k x) k = some x := by
  induction l with
  | nil => simp [setC, lookupC]
  | cons p rest ih =>
    rcases p with ⟨k1, v1⟩
    by_cases h : k1 = k
    · simp [setC, h, lookupC]
    · simp [setC, h, lookupC, ih]

theorem lookupC_removeC_self (l : List (String × Node α)) (k : String) :
    lookupC (removeC l k) k = none := by
  induction l with
  | nil => rfl
  | cons p rest ih =>
    rcases p with ⟨k1, v1⟩
    by_cases h : k1 = k
    · simp [removeC, h, ih]
    · simp [removeC, h, lookupC, ih]

theorem setC_ne_nil (l : List (String × Node α)) (k : String) (x : Node α) :
    setC l k x ≠ [] := by
  rcases l with _ | ⟨⟨k1, v1⟩, rest⟩
  · simp [setC]
  · by_cases h : k1 = k <;> simp [setC, h]

theorem getAux_empty (cs : List String) : getAux (Node.empty : Node α) cs = none := by
  cases cs <;> rfl

theorem delAux_none_of_getAux_none :
    ∀ (cs : List String) (n : Node α), getAux n cs = none → delAux n cs = none := by
  intro cs
  induction cs with
  | nil =>
    intro n h
    rcases n with ⟨V, CH⟩
    rw [getAux_nil] at h
    rw [delAux_nil, h]
  | cons k ks ih =>
    intro n h
    rcases n with ⟨V, CH⟩
    rw [getAux_cons] at h
    rw [delAux_cons]
    rcases hl : lookupC CH k with _ | c
    · rfl
    · rw [hl] at h
      dsimp only at h ⊢
      rw [ih c h]

theorem getAux_setAux :
    ∀ (cs : List String) (n : Node α) (v : α),
      getAux (setAux n cs v) cs = some v := by
  intro cs
  induction cs with
  | nil => intro n v; rfl
  | cons k ks ih =>
    intro n v
    rcases n with ⟨V, CH⟩
    rw [setAux_cons, getAux_cons, lookupC_setC_self]
    exact ih _ v

theorem delAux_setAux :
    ∀ (cs : List String) (n : Node α) (v : α),
      ∃ o, delAux (setAux n cs v) cs = some o ∧
        ∀ m, o = some m → getAux m cs = none := by
  intro cs
  induction cs with
  | nil =>
    intro n v
    rcases n with ⟨V, CH⟩
    rw [setAux_nil]
    by_cases hch : CH.isEmpty
    · refine ⟨none, ?_, by rintro m ⟨⟩⟩
      rw [delAux_nil]
      dsimp only
      rw [if_pos hch]
    · refine ⟨some (Node.mk none CH), ?_, ?_⟩
      · rw [delAux_nil]
        dsimp only
        rw [if_neg hch]
      · rintro m hm
        rw [Option.some_inj] at hm
        rw [← hm, getAux_nil]
  | cons k ks ih =>
    intro n v
    rcases n with ⟨V, CH⟩
    obtain ⟨o, ho, hgo⟩ :=
      ih (match lookupC CH k with | some c => c | none => Node.empty) v
    rw [setAux_cons, delAux_cons, lookupC_setC_self]
    dsimp only
    rw [ho]
    rcases o with _ | c'
    · dsimp only
      by_cases hcond :
          (V.isNone && (removeC (setC CH k
            (setAux (match lookupC CH k with | some c => c | none => Node.empty) ks v)) k).isEmpty)
          = true
      · refine ⟨none, ?_, by rintro m ⟨⟩⟩
        rw [if_pos hcond]
      · refine ⟨some (Node.mk V (removeC (setC CH k
            (setAux (match lookupC CH k with | some c => c | none => Node.empty) ks v)) k)), ?_, ?_⟩
        · rw [if_neg hcond]
        · rintro m hm
          rw [Option.some_inj] at hm
          rw [← hm, getAux_cons, lookupC_removeC_self]
    · dsimp only
      refine ⟨some (Node.mk V (setC (setC CH k
          (setAux (match lookupC CH k with | some c => c | none => Node.empty) ks v)) k c')), rfl, ?_⟩
      rintro m hm
      rw [Option.some_inj] at hm
      rw [← hm, getAux_cons, lookupC_setC_self]
      exact hgo c' rfl

theorem delAux_result_not_empty :
    ∀ (cs : List String) (n : Node α) (r : Node α),
      delAux n cs = some (some r) → r ≠ Node.empty := by
  intro cs
  induction cs with
  | nil =>
    intro n r h
    rcases n with ⟨V, CH⟩
    rw [delAux_nil] at h
    rcases V with _ | v
    · cases h
    · dsimp only at h
      by_cases hch : CH.isEmpty
      · rw [if_pos hch] at h; cases h
      · rw [if_neg hch] at h
        rw [Option.some_inj, Option.some_inj] at h
        rw [← h]
        intro he
        rw [show Node.empty = Node.mk (none : Option α) [] from rfl] at he
        have : CH = [] := congrArg Node.children he
        rw [this] at hch
        exact hch rfl
  | cons k ks ih =>
    intro n r h
    rcases n with ⟨V, CH⟩
    rw [delAux_cons] at h
    rcases hl : lookupC CH k with _ | c
    · rw [hl] at h; cases h
    · rw [hl] at h
      dsimp only at h
      rcases hd : delAux c ks with _ | o
      · rw [hd] at h; cases h
      · rw [hd] at h
        rcases o with _ | c'
        · dsimp only at h
          by_cases hcond : (V.isNone && (removeC CH k).isEmpty) = true
          · rw [if_pos hcond] at h; cases h
          · rw [if_neg hcond] at h
            rw [Option.some_inj, Option.some_inj] at h
            rw [← h]
            intro he
            have hv : V = none := congrArg Node.value he
            have hc : removeC CH k = [] := congrArg Node.children he
            rw [hv, hc] at hcond
            exact hcond rfl
        · dsimp only at h
          rw [Option.some_inj, Option.some_inj] at h
          rw [← h]
          intro he
          have hc : setC CH k c' = [] := congrArg Node.children he
          exact setC_ne_nil CH k c' hc

theorem clearAux_none_iff :
    ∀ (cs : List String) (n : Node α),
      (clearAux n cs = none ↔ findNodeAux n cs = none) := by
  intro cs
  induction cs with
  | nil =>
    intro n
    constructor
    · intro h; cases h
    · intro h; cases h
  | cons k ks ih =>
    intro n
    rcases n with ⟨V, CH⟩
    rw [show clearAux (Node.mk V CH) (k :: ks)
        = (match lookupC CH k with
           | none => none
           | some c => (clearAux c ks).map fun c' => Node.mk V (setC CH k c')) from rfl]
    rw [show findNodeAux (Node.mk V CH) (k :: ks)
        = (match lookupC CH k with
           | none => none
           | some c => findNodeAux c ks) from rfl]
    rcases hl : lookupC CH k with _ | c
    · simp
    · dsimp only
      rw [Option.map_eq_none']
      exact ih c

theorem getitem_keyNotFound_iff (m : Node α) (p : String) :
    getitem m p = .error (.keyNotFound p) ↔
      ∃ comps, iteratepath p = some comps ∧ getAux m comps = none := by
  rw [show getitem m p =
      (match iteratepath p with
       | none => Except.error (.invalidPath p)
       | some comps =>
         match getAux m comps with
         | none => Except.error (.keyNotFound p)
         | some v => Except.ok v) from rfl]
  rcases hit : iteratepath p with _ | comps
  · simp
  · dsimp only
    rcases hg : getAux m comps with _ | v
    · simp [hg]
    · simp [hg]

end PathMap

/-! ## Helper for the isprefix component comparison -/

theorem zip_all_beq_iff_take :
    ∀ (l1 l2 : List (List Char)), l1.length ≤ l2.length →
      (((l1.zip l2).all fun pq => pq.1 == pq.2) = true ↔ l1 = l2.take l1.length) := by
  intro l1
  induction l1 with
  | nil => intro l2 _; simp
  | cons a t1 ih =>
    intro l2 hlen
    rcases l2 with _ | ⟨b, t2⟩
    · simp at hlen
    · simp only [List.zip_cons_cons, List.all_cons, List.length_cons,
        List.take_succ_cons, Bool.and_eq_true, beq_iff_eq]
      rw [ih t2 (by simpa using hlen)]
      constructor
      · rintro ⟨hab, ht⟩
        rw [hab, ← ht]
      · intro h
        injection h with h1 h2
        exact ⟨h1, h2⟩

/-! ## Claims -/

/-- C3: `normpath` resolves each `".."` by popping the most recently pushed
real segment and fails (the modelled `ValueError`, i.e. `none`) exactly when
some prefix of the segment list has more `".."` segments than real segments;
concretely `normpath "foo/../../bar"` fails,
`normpath "/foo//bar/frob/../baz" = "/foo/bar/baz"`, and
`normpath "foo\\bar\\baz" = "foo/bar/baz"`. -/
theorem C3_normpath_backref_failure :
    (∀ p : String, (normpath p = none ↔ backrefOverflow p)) ∧
    normpath "foo/../../bar" = none ∧
    normpath "/foo//bar/frob/../baz" = some "/foo/bar/baz" ∧
    normpath "foo\\bar\\baz" = some "foo/bar/baz" := by
  refine ⟨?_, by decide, by decide, by decide⟩
  intro p
  rw [normpath, Option.map_eq_none']
  have hseg : segsOf p = splitOnC '/' (p.data.map backslash2slash) := rfl
  rcases hp : p.data with _ | ⟨c0, rest⟩
  · rw [show normpathC [] = some [] from rfl]
    rw [hp] at hseg
    constructor
    · intro h; cases h
    · rintro ⟨n, hn⟩
      rw [hseg] at hn
      rw [show splitOnC '/' (([] : List Char).map backslash2slash) = [[]] from rfl] at hn
      rcases n with _ | n
      · simp [realCount, ddotCount] at hn
      · rw [List.take_succ_cons, List.take_nil] at hn
        simp [realCount, ddotCount, List.countP_cons] at hn
  · rw [hp] at hseg
    rw [normpathC_cons]
    rcases hn : normCompsC [] (splitOnC '/' ((c0 :: rest).map backslash2slash))
        with _ | comps
    · dsimp only
      constructor
      · intro _
        obtain ⟨n, hov⟩ := (normCompsC_none_iff _ []).mp hn
        refine ⟨n, ?_⟩
        rw [hseg]
        simpa using hov
      · intro _; rfl
    · dsimp only
      constructor
      · intro h
        by_cases habs : c0 = '\\' ∨ c0 = '/'
        · rw [if_pos habs] at h; cases h
        · rw [if_neg habs] at h; cases h
      · rintro ⟨n, hov⟩
        rw [hseg] at hov
        have : normCompsC [] (splitOnC '/' ((c0 :: rest).map backslash2slash)) = none :=
          (normCompsC_none_iff _ []).mpr ⟨n, by simpa using hov⟩
        rw [this] at hn
        cases hn

/-- C8: `normpath` is idempotent — whenever it succeeds, running it again on
the output returns the output unchanged. -/
theorem C8_normpath_idempotent (p q : String) (h : normpath p = some q) :
    normpath q = some q := by
  rw [normpath, Option.map_eq_some'] at h
  obtain ⟨qc, hqc, hmk⟩ := h
  have hdq : q.data = qc := by rw [← hmk]
  rw [normpath, hdq]
  rcases normpathC_shapes hqc with h0 | h0 | ⟨cs, hne, hreal, h0 | h0⟩
  · rw [h0, show normpathC ([] : List Char) = some [] from rfl]
    rw [show (some ([] : List Char)).map String.mk = some (String.mk []) from rfl]
    rw [← hmk, h0]
  · rw [h0, show normpathC ['/'] = some ['/'] from rfl]
    rw [show (some ['/']).map String.mk = some (String.mk ['/']) from rfl]
    rw [← hmk, h0]
  · rw [h0, normpathC_canon_rel hne hreal, Option.map_some']
    rw [← hmk, h0]
  · rw [h0, normpathC_canon_abs hreal, Option.map_some']
    rw [← hmk, h0]

/-- Witness for C8 at the concrete input `"a//b"`. -/
theorem C8_witness :
    normpath "a//b" = some "a/b" ∧ normpath "a/b" = some "a/b" :=
  ⟨by decide, C8_normpath_idempotent "a//b" "a/b" (by decide)⟩

/-- C9: `normpath ""` is the empty string (not the root), an all-slash input
normalizes to `"/"`, repeated slashes collapse, and mixed separators are
unified to `/`. -/
theorem C9_normpath_edge_cases :
    normpath "" = some "" ∧
    (∀ p : String, p.data ≠ [] → (∀ c ∈ p.data, c = '/') → normpath p = some "/") ∧
    normpath "a//b" = some "a/b" ∧
    normpath "a\\b/c" = some "a/b/c" := by
  refine ⟨by decide, ?_, by decide, by decide⟩
  intro p hne hall
  rcases hp : p.data with _ | ⟨c0, rest⟩
  · exact absurd hp hne
  · have hc0 : c0 = '/' := hall c0 (hp ▸ List.mem_cons_self c0 rest)
    have hmap : (c0 :: rest).map backslash2slash = c0 :: rest := by
      apply map_backslash2slash_id
      intro ch hch
      rw [hall ch (hp ▸ hch)]
      decide
    rw [normpath, hp, normpathC_cons, hmap]
    rw [show splitOnC '/' (c0 :: rest) = splitOnAux '/' (c0 :: rest) [] from rfl]
    rw [splitOnAux_all_sep (c0 :: rest) [] (fun c hc => hall c (hp ▸ hc))]
    rw [normCompsC_all_empty _ [] ?hempty]
    case hempty =>
      intro x hx
      rcases List.mem_cons.mp hx with h | h
      · rw [h]; rfl
      · exact List.eq_of_mem_replicate h
    dsimp only
    rw [if_pos (Or.inr hc0)]
    rfl

/-- Witness for C9's all-slash clause at the concrete input `"//"`. -/
theorem C9_witness :
    ("//" : String).data ≠ [] ∧ normpath "//" = some "/" :=
  ⟨by decide, C9_normpath_edge_cases.2.1 "//" (by decide) (by decide)⟩

/-- C10: ` isprefix` compares raw `/`-split components without normalization:
the empty path is a prefix of every path, while the non-canonical spelling
`"foo//bar"` is not recognized as a prefix of `"foo/bar"`. -/
theorem C10_isprefix_raw :
    (∀ p : String, isprefix "" p = true) ∧
    isprefix "foo//bar" "foo/bar" = false ∧
    normpath "foo//bar" = normpath "foo/bar" := by
  refine ⟨?_, by decide, by decide⟩
  intro p
  rw [ isprefix]
  rw [show dropTrailingEmpty (splitOnC '/' ("" : String).data) = [] from rfl]
  simp

/-- C2 counterexample: the source's ` isprefix` strips ALL trailing empty
components of path1, not a single one — on `("foo/bar//", "foo/bar/x")` the
code returns true while the claim's one-trailing-empty condition is false. -/
theorem C2_counterexample :
    isprefix "foo/bar//" "foo/bar/x" = true ∧
    claimOnePrefixCond "foo/bar//" "foo/bar/x" = false := by
  exact ⟨by decide, by decide⟩

/-- C2 amended: ` isprefix path1 path2` is true iff path1's components after
dropping ALL trailing empty components are exactly the corresponding leading
components of path2 (so a longer path1 is never a prefix); the claim's
concrete examples hold. -/
theorem C2_amended_isprefix_componentwise :
    (∀ path1 path2 : String,
      ( isprefix path1 path2 = true ↔
        (dropTrailingEmpty (splitOnC '/' path1.data)).length
            ≤ (splitOnC '/' path2.data).length ∧
          dropTrailingEmpty (splitOnC '/' path1.data)
            = (splitOnC '/' path2.data).take
                (dropTrailingEmpty (splitOnC '/' path1.data)).length)) ∧
    isprefix "foo/bar" "foo/bar/spam.txt" = true ∧
    isprefix "foo/barry" "foo/baz/bar" = false := by
  refine ⟨?_, by decide, by decide⟩
  intro path1 path2
  rw [ isprefix]
  by_cases hlen : (dropTrailingEmpty (splitOnC '/' path1.data)).length
      > (splitOnC '/' path2.data).length
  · rw [if_pos hlen]
    constructor
    · intro h; cases h
    · rintro ⟨h1, _⟩; omega
  · rw [if_neg hlen]
    rw [zip_all_beq_iff_take _ _ (Nat.le_of_not_lt hlen)]
    constructor
    · intro h; exact ⟨Nat.le_of_not_lt hlen, h⟩
    · rintro ⟨_, h⟩; exact h

/-- C5: deleting a path with no stored value fails with `KeyNotFound`
carrying the original requested path, and (the operation returning an error
rather than a map) the tree is left unchanged. -/
theorem C5_delete_missing_keyNotFound {α : Type} (m : Node α) (p : String)
    (h : PathMap.getitem m p = .error (.keyNotFound p)) :
    PathMap.delitem m p = .error (.keyNotFound p) := by
  obtain ⟨comps, hit, hg⟩ := (PathMap.getitem_keyNotFound_iff m p).mp h
  rw [show PathMap.delitem m p =
      (match iteratepath p with
       | none => Except.error (.invalidPath p)
       | some comps =>
         match PathMap.delAux m comps with
         | none => Except.error (.keyNotFound p)
         | some none => Except.ok Node.empty
         | some (some r) => Except.ok r) from rfl]
  rw [hit]
  dsimp only
  rw [PathMap.delAux_none_of_getAux_none comps m hg]

/-- Witness for C5: deleting `"/a"` from the empty map. -/
theorem C5_witness :
    PathMap.getitem (Node.empty : Node Nat) "/a" = .error (.keyNotFound "/a") ∧
    PathMap.delitem (Node.empty : Node Nat) "/a" = .error (.keyNotFound "/a") :=
  ⟨rfl, C5_delete_missing_keyNotFound Node.empty "/a" rfl⟩

/-- C7: for every path that normalizes successfully, `set` then `get`
returns the stored value, and `set` then `delete` then `get` fails with
`KeyNotFound`. -/
theorem C7_set_get_delete {α : Type} (m : Node α) (p : String) (v : α)
    (comps : List String) (hit : iteratepath p = some comps) :
    ∃ m1 m2 : Node α,
      PathMap.setitem m p v = .ok m1 ∧
      PathMap.getitem m1 p = .ok v ∧
      PathMap.delitem m1 p = .ok m2 ∧
      PathMap.getitem m2 p = .error (.keyNotFound p) := by
  obtain ⟨o, ho, hgo⟩ := PathMap.delAux_setAux comps m v
  have hset : PathMap.setitem m p v = .ok (PathMap.setAux m comps v) := by
    rw [show PathMap.setitem m p v =
        (match iteratepath p with
         | none => Except.error (.invalidPath p)
         | some comps => Except.ok (PathMap.setAux m comps v)) from rfl]
    rw [hit]
  have hget : PathMap.getitem (PathMap.setAux m comps v) p = .ok v := by
    rw [show PathMap.getitem (PathMap.setAux m comps v) p =
        (match iteratepath p with
         | none => Except.error (.invalidPath p)
         | some cs =>
           match PathMap.getAux (PathMap.setAux m comps v) cs with
           | none => Except.error (.keyNotFound p)
           | some w => Except.ok w) from rfl]
    rw [hit]
    dsimp only
    rw [PathMap.getAux_setAux comps m v]
  have hdelstep : ∀ (m2 : Node α), PathMap.getAux m2 comps = none →
      PathMap.getitem m2 p = .error (.keyNotFound p) := by
    intro m2 hg2
    exact (PathMap.getitem_keyNotFound_iff m2 p).mpr ⟨comps, hit, hg2⟩
  have hdel : ∀ r, PathMap.delAux (PathMap.setAux m comps v) comps = some r →
      PathMap.delitem (PathMap.setAux m comps v) p =
        (match r with
         | none => Except.ok Node.empty
         | some n => Except.ok n) := by
    intro r hr
    rw [show PathMap.delitem (PathMap.setAux m comps v) p =
        (match iteratepath p with
         | none => Except.error (.invalidPath p)
         | some cs =>
           match PathMap.delAux (PathMap.setAux m comps v) cs with
           | none => Except.error (.keyNotFound p)
           | some none => Except.ok Node.empty
           | some (some n) => Except.ok n) from rfl]
    rw [hit]
    dsimp only
    rw [hr]
    rcases r with _ | n
    · rfl
    · rfl
  rcases o with _ | r
  · exact ⟨PathMap.setAux m comps v, Node.empty, hset, hget, hdel none ho,
      hdelstep Node.empty (PathMap.getAux_empty comps)⟩
  · exact ⟨PathMap.setAux m comps v, r, hset, hget, hdel (some r) ho,
      hdelstep r (hgo r rfl)⟩

/-- Witness for C7 at the empty map, path `"/a/b"`, value `5`. -/
theorem C7_witness :
    iteratepath "/a/b" = some ["a", "b"] ∧
    ∃ m1 m2 : Node Nat,
      PathMap.setitem Node.empty "/a/b" 5 = .ok m1 ∧
      PathMap.getitem m1 "/a/b" = .ok 5 ∧
      PathMap.delitem m1 "/a/b" = .ok m2 ∧
      PathMap.getitem m2 "/a/b" = .error (.keyNotFound "/a/b") :=
  ⟨rfl, C7_set_get_delete Node.empty "/a/b" 5 ["a", "b"] rfl⟩

/-- C4: deletion prunes every node that becomes childless and valueless
(`delAux` never keeps such a node), the root is never removed (a fully
emptied map is the empty root node), and after inserting only at `/a/b/c`
and deleting `/a/b/c` the map is the empty root, which still accepts
subsequent insertions. -/
theorem C4_delete_prunes :
    (∀ (α : Type) (n : Node α) (cs : List String) (r : Node α),
      PathMap.delAux n cs = some (some r) → r ≠ Node.empty) ∧
    (∃ m1 : Node Nat,
      PathMap.setitem Node.empty "/a/b/c" 1 = .ok m1 ∧
      PathMap.delitem m1 "/a/b/c" = .ok Node.empty) ∧
    (∃ m2 : Node Nat,
      PathMap.setitem Node.empty "/x" 2 = .ok m2 ∧
      PathMap.getitem m2 "/x" = .ok 2) := by
  refine ⟨?_, ⟨_, rfl, rfl⟩, ⟨_, rfl, rfl⟩⟩
  intro α n cs r h
  exact PathMap.delAux_result_not_empty cs n r h

/-- Witness for C4's pruning clause: deleting `"a"` below a valued root
keeps the (non-empty) root. -/
theorem C4_witness :
    PathMap.delAux (Node.mk (some 1) [("a", Node.mk (some 2) [])] : Node Nat) ["a"]
        = some (some (Node.mk (some 1) [])) ∧
    (Node.mk (some 1) [] : Node Nat) ≠ Node.empty :=
  ⟨rfl, C4_delete_prunes.1 Nat (Node.mk (some 1) [("a", Node.mk (some 2) [])]) ["a"]
    (Node.mk (some 1) []) rfl⟩

/-- C6: `clear "/a/b"` removes the values at `/a/b`, `/a/b/c`, `/a/b/c/d`
and leaves `/a/x` untouched; the node at `/a/b` survives as an empty leaf;
and clearing a path with a missing component is a no-op. -/
theorem C6_clear_subtree :
    (∃ m1 m2 m3 m4 m5 : Node Nat,
      PathMap.setitem Node.empty "/a/b" 1 = .ok m1 ∧
      PathMap.setitem m1 "/a/b/c" 2 = .ok m2 ∧
      PathMap.setitem m2 "/a/b/c/d" 3 = .ok m3 ∧
      PathMap.setitem m3 "/a/x" 4 = .ok m4 ∧
      PathMap.clear m4 "/a/b" = .ok m5 ∧
      PathMap.getitem m5 "/a/b" = .error (.keyNotFound "/a/b") ∧
      PathMap.getitem m5 "/a/b/c" = .error (.keyNotFound "/a/b/c") ∧
      PathMap.getitem m5 "/a/b/c/d" = .error (.keyNotFound "/a/b/c/d") ∧
      PathMap.getitem m5 "/a/x" = .ok 4 ∧
      PathMap.findNodeAux m5 ["a", "b"] = some Node.empty) ∧
    (∀ (α : Type) (m : Node α) (root : String) (comps : List String),
      iteratepath root = some comps →
      PathMap.findNodeAux m comps = none →
      PathMap.clear m root = .ok m) := by
  constructor
  · exact ⟨_, _, _, _, _, rfl, rfl, rfl, rfl, rfl, rfl, rfl, rfl, rfl, rfl⟩
  · intro α m root comps hit hfind
    rw [show PathMap.clear m root =
        (match iteratepath root with
         | none => Except.error (.invalidPath root)
         | some cs =>
           match PathMap.clearAux m cs with
           | none => Except.ok m
           | some r => Except.ok r) from rfl]
    rw [hit]
    dsimp only
    rw [(PathMap.clearAux_none_iff comps m).mpr hfind]

/-- Witness for C6's no-op clause: clearing the missing path `"/q"` in the
empty map. -/
theorem C6_witness :
    iteratepath "/q" = some ["q"] ∧
    PathMap.findNodeAux (Node.empty : Node Nat) ["q"] = none ∧
    PathMap.clear (Node.empty : Node Nat) "/q" = .ok Node.empty :=
  ⟨rfl, rfl, C6_clear_subtree.2 Nat Node.empty "/q" ["q"] rfl rfl⟩

/-- C1 counterexample: for the canonical absolute path `"/a"`, `pathsplit`
gives `("", "a")` and rejoining gives `"a"`, not `"/a"` — the round trip
fails for absolute paths with a single component (the empty head is skipped
by `pathjoin`, losing the leading slash). -/
theorem C1_counterexample :
    pathsplit "/a" = some ("", "a") ∧
    pathjoin ["", "a"] = some "a" ∧ ("a" : String) ≠ "/a" :=
  ⟨by decide, by decide, by decide⟩

/-- C1 amended: for every canonical absolute path with at least TWO
components, splitting with `pathsplit` and rejoining head and tail with
`pathjoin` yields the path again. -/
theorem C1_amended_roundtrip (comps : List (List Char))
    (h2 : 2 ≤ comps.length) (hreal : ∀ c ∈ comps, RealComp c) :
    ∃ hd tl : String,
      pathsplit (String.mk ('/' :: joinWithC '/' comps)) = some (hd, tl) ∧
      pathjoin [hd, tl] = some (String.mk ('/' :: joinWithC '/' comps)) := by
  have hne : comps ≠ [] := by
    intro h
    rw [h, List.length_nil] at h2
    omega
  obtain ⟨dl, lst, hsplitc⟩ : ∃ dl lst, dl ++ [lst] = comps :=
    ⟨comps.dropLast, comps.getLast hne, List.dropLast_append_getLast hne⟩
  have hlen : dl.length + 1 = comps.length := by
    rw [← hsplitc, List.length_append, List.length_cons, List.length_nil]
  have hdlne : dl ≠ [] := by
    intro h
    rw [h, List.length_nil] at hlen
    omega
  have hlstreal : RealComp lst :=
    hreal lst (by rw [← hsplitc]; exact List.mem_append_right dl (List.mem_singleton.mpr rfl))
  have hdlreal : ∀ c ∈ dl, RealComp c := fun c hc =>
    hreal c (by rw [← hsplitc]; exact List.mem_append_left [lst] hc)
  have hjoin : joinWithC '/' comps = joinWithC '/' dl ++ '/' :: lst := by
    conv_lhs => rw [← hsplitc]
    exact joinWithC_append_single dl lst hdlne
  have hrev : ('/' :: joinWithC '/' comps).reverse
      = lst.reverse ++ '/' :: ((joinWithC '/' dl).reverse ++ ['/']) := by
    rw [hjoin]
    simp [List.reverse_append, List.reverse_cons]
  have hnosl : '/' ∉ lst.reverse := by
    intro h
    exact hlstreal.2.1 (List.mem_reverse.mp h)
  have hraux : rsplitAux '/' ('/' :: joinWithC '/' comps).reverse []
      = some ('/' :: joinWithC '/' dl, lst) := by
    rw [hrev, rsplitAux_spec lst.reverse ((joinWithC '/' dl).reverse ++ ['/']) [] hnosl]
    simp [List.reverse_append]
  have hsplit : pathsplit (String.mk ('/' :: joinWithC '/' comps))
      = some (String.mk ('/' :: joinWithC '/' dl), String.mk lst) := by
    rw [show pathsplit (String.mk ('/' :: joinWithC '/' comps))
        = (normpathC ('/' :: joinWithC '/' comps)).map (fun q =>
            match rsplitLast '/' q with
            | (none, t) => ("", String.mk t)
            | (some h, t) => (String.mk h, String.mk t)) from rfl]
    rw [normpathC_canon_abs hreal, Option.map_some']
    rw [show rsplitLast '/' ('/' :: joinWithC '/' comps)
        = (match rsplitAux '/' ('/' :: joinWithC '/' comps).reverse [] with
           | none => (none, '/' :: joinWithC '/' comps)
           | some (h, t) => (some h, t)) from rfl]
    rw [hraux]
  obtain ⟨a, lr, hlsteq⟩ : ∃ a lr, lst = a :: lr := by
    rcases hl : lst with _ | ⟨a, lr⟩
    · exact absurd hl hlstreal.1
    · exact ⟨a, lr, rfl⟩
  have hanb : ¬(a = '\\' ∨ a = '/') := by
    rintro (h | h)
    · exact hlstreal.2.2.1 (by rw [hlsteq, h]; exact List.mem_cons_self _ _)
    · exact hlstreal.2.1 (by rw [hlsteq, h]; exact List.mem_cons_self _ _)
  have hfold : [String.mk ('/' :: joinWithC '/' dl), String.mk lst].foldl
        pathjoinStep (false, [])
      = (true, ['/' :: joinWithC '/' dl, lst]) := by
    rw [List.foldl_cons, List.foldl_cons, List.foldl_nil]
    rw [show pathjoinStep (false, []) (String.mk ('/' :: joinWithC '/' dl))
        = (true, ['/' :: joinWithC '/' dl]) from rfl]
    rw [hlsteq]
    rw [show pathjoinStep (true, ['/' :: joinWithC '/' dl]) (String.mk (a :: lr))
        = if a = '\\' ∨ a = '/' then (true, [a :: lr])
          else (true, ['/' :: joinWithC '/' dl, a :: lr]) from rfl]
    rw [if_neg hanb]
  have hjoin2 : joinWithC '/' ['/' :: joinWithC '/' dl, lst]
      = '/' :: joinWithC '/' comps := by
    rw [joinWithC_cons₂, hjoin]
    rfl
  have hjoinfull : pathjoin [String.mk ('/' :: joinWithC '/' dl), String.mk lst]
      = some (String.mk ('/' :: joinWithC '/' comps)) := by
    simp only [pathjoin]
    rw [hfold]
    dsimp only
    rw [hjoin2, normpathC_canon_abs hreal, Option.map_some']
    rfl
  exact ⟨String.mk ('/' :: joinWithC '/' dl), String.mk lst, hsplit, hjoinfull⟩

/-- Witness for the amended C1 at the concrete path `"/a/b"`. -/
theorem C1_witness :
    2 ≤ ([['a'], ['b']] : List (List Char)).length ∧
    ∃ hd tl : String,
      pathsplit (String.mk ('/' :: joinWithC '/' [['a'], ['b']])) = some (hd, tl) ∧
      pathjoin [hd, tl] = some (String.mk ('/' :: joinWithC '/' [['a'], ['b']])) :=
  ⟨by decide, C1_amended_roundtrip [['a'], ['b']] (by decide) (by decide)⟩
